import Mathlib

/-!
Shallow embedding of the stream-cipher chat program `src/rust_03/src/main.rs`:
modular exponentiation (`mod_pow`), the LCG keystream (`lcg_keystream`), the
XOR cipher (`xor_cipher`), per-direction cipher sessions, the console send
loop of `handle_chat`, and the network I/O order of `dh_key_exchange`.

Machine integers are modelled as `Nat`. Inside `mod_pow` the Rust code
computes in `u128`: every intermediate value there is a product of two
numbers below `2^64` (the operands are residues modulo a `u64`, or 1), hence
below `2^128`, so the `u128` arithmetic never wraps and plain `Nat`
arithmetic models it exactly; the final `result as u64` cast is lossless for
the same reason. Where `u64` arithmetic can wrap (`wrapping_mul` /
`wrapping_add` in the LCG) the reduction modulo `2^64` is written out.
-/

/-- Constant `P` (main.rs line 9): the fixed 64-bit DH modulus
`0xD87F_AE3E_291B_4C7F`. -/
def P : Nat := 0xD87FAE3E291B4C7F

/-- Constant `G` (main.rs line 11): the fixed DH generator. -/
def G : Nat := 2

/-- Constant `LCG_A` (main.rs line 13): LCG multiplier. -/
def LCG_A : Nat := 1103515245

/-- Constant `LCG_C` (main.rs line 14): LCG increment. -/
def LCG_C : Nat := 12345

/-- Constant `LCG_M` (main.rs line 15): LCG modulus `1 << 32`. -/
def LCG_M : Nat := 2 ^ 32

/-- Size of the `u64` value space; `wrapping_mul`/`wrapping_add` on `u64`
reduce modulo this. -/
def U64 : Nat := 2 ^ 64

/-- The `while exponent > 0` loop of `mod_pow` (main.rs lines 26-32), with
the loop state (`base_128`, `result`, `exponent`) passed explicitly.
`exponent & 1` is written `exponent % 2` and `exponent >>= 1` is
`exponent / 2`. -/
def modPowLoop (base result modulus exponent : Nat) : Nat :=
  if h : exponent = 0 then result
  else
    modPowLoop ((base * base) % modulus)
      (if exponent % 2 = 1 then (result * base) % modulus else result)
      modulus (exponent / 2)
termination_by exponent
decreasing_by exact Nat.div_lt_self (Nat.pos_of_ne_zero h) (by decide)

/-- The function `mod_pow` (main.rs lines 18-35): early return 0 when
`modulus == 0`, otherwise the square-and-multiply loop started with
`result = 1` and `base_128 = base % modulus`. -/
def mod_pow (base exponent modulus : Nat) : Nat :=
  if modulus = 0 then 0
  else modPowLoop (base % modulus) 1 modulus exponent

theorem modPowLoop_exp_zero (b r m : Nat) : modPowLoop b r m 0 = r := by
  unfold modPowLoop
  simp

theorem modPowLoop_correct :
    ∀ e b r m, 0 < e → modPowLoop b r m e = r * b ^ e % m := by
  intro e
  induction e using Nat.strong_induction_on with
  | _ e ih =>
    intro b r m he
    unfold modPowLoop
    rw [dif_neg (Nat.pos_iff_ne_zero.mp he)]
    rcases Nat.eq_zero_or_pos (e / 2) with hz | hpos
    · have he1 : e = 1 := by omega
      subst he1
      simp [modPowLoop]
    · rw [ih (e / 2) (Nat.div_lt_self he (by decide)) _ _ _ hpos]
      rcases Nat.even_or_odd e with hev | hod
      · have hm2 : e % 2 = 0 := Nat.even_iff.mp hev
        have h2 : 2 * (e / 2) = e := by omega
        rw [if_neg (by omega)]
        calc r * ((b * b) % m) ^ (e / 2) % m
            = r % m * (((b * b) % m) ^ (e / 2) % m) % m := by rw [Nat.mul_mod]
          _ = r % m * ((b * b) ^ (e / 2) % m) % m := by rw [← Nat.pow_mod]
          _ = r * (b * b) ^ (e / 2) % m := by rw [← Nat.mul_mod]
          _ = r * b ^ e % m := by rw [← pow_two, ← pow_mul, h2]
      · have hm2 : e % 2 = 1 := Nat.odd_iff.mp hod
        have h2 : 2 * (e / 2) + 1 = e := by omega
        rw [if_pos hm2]
        have hbb : ((b * b) % m) ^ (e / 2) % m = b ^ (2 * (e / 2)) % m := by
          rw [← Nat.pow_mod, ← pow_two, ← pow_mul]
        have hbe : b ^ e = b ^ (2 * (e / 2)) * b := by
          rw [← pow_succ]
          congr 1
          omega
        calc r * b % m * ((b * b) % m) ^ (e / 2) % m
            = r * b * ((b * b) % m) ^ (e / 2) % m := Nat.mod_mul_mod
          _ = r * b % m * (((b * b) % m) ^ (e / 2) % m) % m := by
                rw [← Nat.mul_mod]
          _ = r * b % m * (b ^ (2 * (e / 2)) % m) % m := by rw [hbb]
          _ = r * b * b ^ (2 * (e / 2)) % m := by rw [← Nat.mul_mod]
          _ = r * b ^ e % m := by rw [hbe]; ring_nf

theorem mod_pow_modulus_zero (b e : Nat) : mod_pow b e 0 = 0 := by
  simp [mod_pow]

theorem mod_pow_exp_zero (b m : Nat) (hm : m ≠ 0) : mod_pow b 0 m = 1 := by
  rw [mod_pow, if_neg hm, modPowLoop_exp_zero]

theorem mod_pow_eq_pow_mod_of_pos (b e m : Nat) (hm : 0 < m) (he : 0 < e) :
    mod_pow b e m = b ^ e % m := by
  rw [mod_pow, if_neg (Nat.pos_iff_ne_zero.mp hm),
    modPowLoop_correct e _ _ _ he, one_mul, ← Nat.pow_mod]

theorem mod_pow_eq_pow_mod (b e m : Nat) (hm : 1 < m) :
    mod_pow b e m = b ^ e % m := by
  rcases Nat.eq_zero_or_pos e with he | he
  · subst he
    rw [mod_pow_exp_zero b m (by omega), pow_zero, Nat.mod_eq_of_lt hm]
  · exact mod_pow_eq_pow_mod_of_pos b e m (by omega) he

theorem dh_commute (g a b p : Nat) (hp : 1 < p) :
    mod_pow (mod_pow g a p) b p = mod_pow (mod_pow g b p) a p := by
  rw [mod_pow_eq_pow_mod g a p hp, mod_pow_eq_pow_mod g b p hp,
    mod_pow_eq_pow_mod _ b p hp, mod_pow_eq_pow_mod _ a p hp,
    ← Nat.pow_mod, ← Nat.pow_mod, ← pow_mul, ← pow_mul, mul_comm]

/-- Claim C1: for every pair of private values `a` and `b` and the fixed
parameters (`p = P`, `g = G = 2`), both parties derive the identical shared
secret: `mod_pow (mod_pow g a p) b p = mod_pow (mod_pow g b p) a p`; and for
`p = 97`, `g = 2`, `a = 6`, `b = 15` the public values are 64 and 79 and both
`mod_pow 79 6 97` and `mod_pow 64 15 97` equal 47, with the agreement holding
for all private pairs at `p = 97` as well. -/
theorem dh_handshake_agreement :
    (∀ a b : Nat, mod_pow (mod_pow G a P) b P = mod_pow (mod_pow G b P) a P)
    ∧ mod_pow 2 6 97 = 64 ∧ mod_pow 2 15 97 = 79
    ∧ mod_pow 79 6 97 = 47 ∧ mod_pow 64 15 97 = 47
    ∧ (∀ a b : Nat,
        mod_pow (mod_pow 2 a 97) b 97 = mod_pow (mod_pow 2 b 97) a 97) := by
  refine ⟨fun a b => dh_commute G a b P (by decide), ?_, ?_, ?_, ?_,
    fun a b => dh_commute 2 a b 97 (by decide)⟩
  · rw [mod_pow_eq_pow_mod 2 6 97 (by decide)]; decide
  · rw [mod_pow_eq_pow_mod 2 15 97 (by decide)]; decide
  · rw [mod_pow_eq_pow_mod 79 6 97 (by decide)]; decide
  · rw [mod_pow_eq_pow_mod 64 15 97 (by decide)]; decide

/-- Claim C2 counterexample: the claim says `mod_pow` returns the
mathematical value `base ^ exponent mod modulus` for every `modulus > 0`,
but at `base = 0`, `exponent = 0`, `modulus = 1` the code returns 1 while
the mathematical value `0 ^ 0 % 1` is 0. -/
theorem mod_pow_modulus_one_exp_zero :
    mod_pow 0 0 1 = 1 ∧ (0 : Nat) ^ 0 % 1 = 0 := by
  constructor
  · rw [mod_pow, if_neg (by decide), modPowLoop_exp_zero]
  · decide

/-- Claim C2 (amended): `mod_pow base exponent modulus` returns
`base ^ exponent % modulus` for every `modulus > 1`, and for every
`modulus > 0` when `exponent > 0` — the sole exception to the original claim
being `exponent = 0` with `modulus = 1`, where it returns 1 instead of 0;
`modulus = 0` yields 0 (defined degenerate case); `mod_pow 2 10 1000 = 24`;
and `mod_pow base 0 m = 1` for every base and every `m > 1`. -/
theorem mod_pow_contract :
    (∀ b e m : Nat, 1 < m → mod_pow b e m = b ^ e % m)
    ∧ (∀ b e m : Nat, 0 < m → 0 < e → mod_pow b e m = b ^ e % m)
    ∧ (∀ b e : Nat, mod_pow b e 0 = 0)
    ∧ mod_pow 2 10 1000 = 24
    ∧ (∀ b m : Nat, 1 < m → mod_pow b 0 m = 1) := by
  refine ⟨mod_pow_eq_pow_mod, mod_pow_eq_pow_mod_of_pos,
    mod_pow_modulus_zero, ?_, fun b m hm => mod_pow_exp_zero b m (by omega)⟩
  rw [mod_pow_eq_pow_mod 2 10 1000 (by decide)]
  decide

/-- Witness for C2's amended theorem at concrete inputs. -/
theorem mod_pow_contract_witness :
    (1 : Nat) < 10 ∧ mod_pow 3 4 10 = 3 ^ 4 % 10 :=
  ⟨by decide, mod_pow_contract.1 3 4 10 (by decide)⟩

/-- Claim C10: for every base, every exponent and every modulus > 1,
`mod_pow base exponent modulus < modulus` — the result is a fully reduced
residue (the bound needs `modulus > 1` because `mod_pow base 0 1 = 1`). -/
theorem mod_pow_lt_modulus (b e m : Nat) (hm : 1 < m) : mod_pow b e m < m := by
  rw [mod_pow_eq_pow_mod b e m hm]
  exact Nat.mod_lt _ (by omega)

/-- Witness for C10 at concrete inputs. -/
theorem mod_pow_lt_modulus_witness : (1 : Nat) < 7 ∧ mod_pow 5 3 7 < 7 :=
  ⟨by decide, mod_pow_lt_modulus 5 3 7 (by decide)⟩

/-- One step of the closure inside `lcg_keystream` (main.rs line 41):
`current_state = (LCG_A.wrapping_mul(current_state).wrapping_add(LCG_C)) % LCG_M`,
with the `u64` wrapping operations written as reductions modulo `2^64`. -/
def lcgStep (state : Nat) : Nat :=
  ((LCG_A * state) % U64 + LCG_C) % U64 % LCG_M

theorem lcgStep_def (state : Nat) :
    lcgStep state = ((LCG_A * state) % U64 + LCG_C) % U64 % LCG_M :=
  rfl

attribute [irreducible] lcgStep

/-- One call of the keystream iterator (main.rs lines 40-43): the new value
of `current_state` together with the emitted byte `(current_state & 0xFF)`. -/
def lcgNext (state : Nat) : Nat × Nat :=
  (lcgStep state, lcgStep state &&& 0xFF)

/-- State of the keystream iterator after `n` calls. -/
def lcgIterate : Nat → Nat → Nat
  | st, 0 => st
  | st, n + 1 => lcgIterate (lcgStep st) n

/-- The first `n` bytes produced by the keystream iterator started in state
`st` (for a fresh `lcg_keystream(seed)`, `st` is the seed). -/
def lcgBytes : Nat → Nat → List Nat
  | _, 0 => []
  | st, n + 1 => (lcgStep st &&& 0xFF) :: lcgBytes (lcgStep st) n

/-- A keystream generator as returned by `lcg_keystream(seed)` (main.rs
lines 37-44): its entire state is the captured `current_state`, initialised
to the seed. -/
structure KeystreamGenerator where
  state : Nat

/-- The function `lcg_keystream` (main.rs lines 37-44): constructs the
generator with `current_state = seed`. -/
def lcg_keystream (seed : Nat) : KeystreamGenerator :=
  ⟨seed⟩

/-- The byte sequence a generator yields when advanced `n` steps. -/
def generatorBytes (g : KeystreamGenerator) (n : Nat) : List Nat :=
  lcgBytes g.state n

theorem lcgStep_exact (s : Nat) : lcgStep s = (LCG_A * s + LCG_C) % 2 ^ 32 := by
  have h32 : (2 : Nat) ^ 32 ∣ 2 ^ 64 := pow_dvd_pow 2 (by omega)
  rw [lcgStep_def]
  unfold LCG_M U64
  rw [Nat.mod_mod_of_dvd _ h32, Nat.add_mod, Nat.mod_mod_of_dvd _ h32,
    ← Nat.add_mod]

theorem and_255_eq_mod (x : Nat) : x &&& 0xFF = x % 2 ^ 8 := by
  have h : (0xFF : Nat) = 2 ^ 8 - 1 := by decide
  rw [h, Nat.and_pow_two_sub_one_eq_mod]

/-- Claim C3: for every 64-bit state value, one step of the keystream
generator sets the new state to the exact integer value
`(1103515245 * state + 12345) mod 2^32` — the code's 64-bit wrapping
multiply-add followed by `% 2^32` equals the spec's recurrence in exact
arithmetic — and emits the low 8 bits of the new state as the output byte. -/
theorem lcg_step_recurrence (s : Nat) (hs : s < U64) :
    lcgNext s = ((1103515245 * s + 12345) % 2 ^ 32,
      (1103515245 * s + 12345) % 2 ^ 32 % 2 ^ 8) := by
  rw [lcgNext, lcgStep_exact, and_255_eq_mod]
  rfl

/-- Witness for C3 at the full-width 64-bit seed `2^64 - 1`. -/
theorem lcg_step_recurrence_witness :
    2 ^ 64 - 1 < U64 ∧ lcgNext (2 ^ 64 - 1) =
      ((1103515245 * (2 ^ 64 - 1) + 12345) % 2 ^ 32,
        (1103515245 * (2 ^ 64 - 1) + 12345) % 2 ^ 32 % 2 ^ 8) :=
  ⟨by decide, lcg_step_recurrence (2 ^ 64 - 1) (by decide)⟩

/-- Claim C4: for every seed `s` and every count `n`, two independently
constructed keystream generators seeded with `s` and each advanced `n` steps
produce the same sequence of `n` bytes. -/
theorem keystream_deterministic (s n : Nat) (g₁ g₂ : KeystreamGenerator)
    (h₁ : g₁ = lcg_keystream s) (h₂ : g₂ = lcg_keystream s) :
    generatorBytes g₁ n = generatorBytes g₂ n := by
  subst h₁
  subst h₂
  rfl

/-- Witness for C4 at seed 9, five steps. -/
theorem keystream_deterministic_witness :
    generatorBytes (lcg_keystream 9) 5 = generatorBytes (lcg_keystream 9) 5 :=
  keystream_deterministic 9 5 (lcg_keystream 9) (lcg_keystream 9) rfl rfl

/-- The per-byte loop of `xor_cipher` (main.rs lines 48-54), specialised to
the LCG keystream the program always passes; the iterator's `&mut` state is
threaded explicitly. Returns `(cipher_bytes, key_bytes, final state)`. The
keystream is infinite, so `keystream.next().unwrap_or(0)` always takes the
`Some` branch. -/
def xorCipherLoop : List Nat → Nat → List Nat × List Nat × Nat
  | [], st => ([], [], st)
  | byte :: rest, st =>
    let k := lcgStep st &&& 0xFF
    let r := xorCipherLoop rest (lcgStep st)
    ((byte ^^^ k) :: r.1, k :: r.2.1, r.2.2)

/-- The function `xor_cipher` (main.rs lines 46-57). The `keystream_pos`
argument is accepted and never used, exactly as in the source. -/
def xor_cipher (data : List Nat) (ksState : Nat) (_keystream_pos : Nat) :
    List Nat × List Nat × Nat :=
  xorCipherLoop data ksState

theorem xorCipherLoop_round_trip (data : List Nat) (s : Nat) :
    (xorCipherLoop (xorCipherLoop data s).1 s).1 = data := by
  induction data generalizing s with
  | nil => rfl
  | cons byte rest ih =>
    simp only [xorCipherLoop]
    rw [Nat.xor_cancel_right, ih]

/-- Claim C5: for every keystream byte `k` and message byte `m`,
`(m XOR k) XOR k = m`; consequently applying `xor_cipher` to any plaintext
with a generator seeded `s`, then applying `xor_cipher` to the resulting
ciphertext with a fresh generator seeded with the same `s` and advanced
identically, returns the original plaintext; and `0x41 XOR 0x5A = 0x1B`,
which decrypts back to `0x41`. -/
theorem xor_round_trip :
    (∀ k m : Nat, (m ^^^ k) ^^^ k = m)
    ∧ (∀ (data : List Nat) (s p₁ p₂ : Nat),
        (xor_cipher (xor_cipher data s p₁).1 s p₂).1 = data)
    ∧ ((0x41 : Nat) ^^^ 0x5A) = 0x1B ∧ ((0x1B : Nat) ^^^ 0x5A) = 0x41 :=
  ⟨fun k m => Nat.xor_cancel_right k m,
   fun data s _ _ => xorCipherLoop_round_trip data s,
   by decide, by decide⟩

/-- A per-direction cipher session as kept by `handle_chat`: the
mutex-guarded keystream iterator state (main.rs lines 176-177) and the
mutex-guarded position counter (lines 179-180). -/
structure CipherSession where
  state : Nat
  pos : Nat

/-- A fresh session as built in `handle_chat` (main.rs lines 176-180): the
generator is `lcg_keystream(shared_secret)` and the position counter starts
at 0. -/
def mkCipherSession (seed : Nat) : CipherSession :=
  ⟨seed, 0⟩

/-- One send-side encryption (main.rs lines 219-226): under the two locks,
`xor_cipher` runs on the shared keystream iterator, then
`*pos_guard += plain_bytes.len()`. Returns the updated session, the
ciphertext, and the key bytes consumed. -/
def sessionEncrypt (sess : CipherSession) (plain : List Nat) :
    CipherSession × List Nat × List Nat :=
  let r := xor_cipher plain sess.state sess.pos
  (⟨r.2.2, sess.pos + plain.length⟩, r.1, r.2.1)

theorem xorCipherLoop_keys (data : List Nat) (st : Nat) :
    (xorCipherLoop data st).2.1 = lcgBytes st data.length := by
  induction data generalizing st with
  | nil => rfl
  | cons byte rest ih =>
    simp only [xorCipherLoop, List.length_cons, lcgBytes]
    rw [ih]

theorem xorCipherLoop_state (data : List Nat) (st : Nat) :
    (xorCipherLoop data st).2.2 = lcgIterate st data.length := by
  induction data generalizing st with
  | nil => rfl
  | cons byte rest ih => exact ih (lcgStep st)

theorem lcgBytes_length (st n : Nat) : (lcgBytes st n).length = n := by
  induction n generalizing st with
  | zero => rfl
  | succ k ih =>
    simp only [lcgBytes, List.length_cons]
    rw [ih]

theorem lcgBytes_add (st n m : Nat) :
    lcgBytes st (n + m) = lcgBytes st n ++ lcgBytes (lcgIterate st n) m := by
  induction n generalizing st with
  | zero => rw [Nat.zero_add]; rfl
  | succ k ih =>
    rw [Nat.succ_add]
    simp only [lcgBytes, lcgIterate, List.cons_append]
    rw [ih]

/-- Claim C6: within one send session, encrypting two successive messages of
lengths `L1` then `L2` consumes the keystream bytes at positions `[0, L1)`
and `[L1, L1 + L2)` respectively — the two key-byte lists are exactly the
first-`L1` prefix and the following `L2`-byte segment of the seed's
keystream, with no overlap — and the position counter increases by exactly
the number of bytes encrypted on each use. -/
theorem send_no_key_reuse (seed : Nat) (m₁ m₂ : List Nat) :
    ((sessionEncrypt (mkCipherSession seed) m₁).2.2
        = lcgBytes seed m₁.length)
    ∧ ((sessionEncrypt (sessionEncrypt (mkCipherSession seed) m₁).1 m₂).2.2
        = (lcgBytes seed (m₁.length + m₂.length)).drop m₁.length)
    ∧ ((sessionEncrypt (mkCipherSession seed) m₁).2.2
        ++ (sessionEncrypt (sessionEncrypt (mkCipherSession seed) m₁).1 m₂).2.2
        = lcgBytes seed (m₁.length + m₂.length))
    ∧ ((sessionEncrypt (mkCipherSession seed) m₁).1.pos
        = (mkCipherSession seed).pos + m₁.length)
    ∧ ((sessionEncrypt (sessionEncrypt (mkCipherSession seed) m₁).1 m₂).1.pos
        = (sessionEncrypt (mkCipherSession seed) m₁).1.pos + m₂.length) := by
  have hk1 : (sessionEncrypt (mkCipherSession seed) m₁).2.2
      = lcgBytes seed m₁.length := xorCipherLoop_keys m₁ seed
  have hst : (sessionEncrypt (mkCipherSession seed) m₁).1.state
      = lcgIterate seed m₁.length := xorCipherLoop_state m₁ seed
  have hk2 : (sessionEncrypt (sessionEncrypt (mkCipherSession seed) m₁).1 m₂).2.2
      = lcgBytes (lcgIterate seed m₁.length) m₂.length := by
    show (xorCipherLoop m₂ (sessionEncrypt (mkCipherSession seed) m₁).1.state).2.1
      = lcgBytes (lcgIterate seed m₁.length) m₂.length
    rw [hst, xorCipherLoop_keys]
  have hsplit : lcgBytes seed (m₁.length + m₂.length)
      = lcgBytes seed m₁.length ++ lcgBytes (lcgIterate seed m₁.length) m₂.length :=
    lcgBytes_add seed m₁.length m₂.length
  refine ⟨hk1, ?_, ?_, rfl, rfl⟩
  · rw [hk2, hsplit]
    have hd := List.drop_left (lcgBytes seed m₁.length)
      (lcgBytes (lcgIterate seed m₁.length) m₂.length)
    rw [lcgBytes_length] at hd
    exact hd.symm
  · rw [hk1, hk2, hsplit]

/-- White_Space code points matched by Rust `char::is_whitespace`; the
`str::trim` call of main.rs line 212 strips these from both ends of the
console line. -/
def rustIsWhitespace (c : Char) : Bool :=
  [0x09, 0x0A, 0x0B, 0x0C, 0x0D, 0x20, 0x85, 0xA0, 0x1680,
   0x2000, 0x2001, 0x2002, 0x2003, 0x2004, 0x2005, 0x2006, 0x2007,
   0x2008, 0x2009, 0x200A, 0x2028, 0x2029, 0x202F, 0x205F,
   0x3000].contains c.toNat

/-- Rust `str::trim` (main.rs line 212): remove leading and trailing
whitespace; a console line is modelled as its list of characters. -/
def rustTrim (s : List Char) : List Char :=
  ((s.dropWhile rustIsWhitespace).reverse.dropWhile rustIsWhitespace).reverse

/-- UTF-8 encoding of one character, as `str::as_bytes` exposes it
(main.rs line 217). -/
def utf8Bytes (c : Char) : List Nat :=
  let n := c.toNat
  if n < 0x80 then [n]
  else if n < 0x800 then [0xC0 + n / 0x40, 0x80 + n % 0x40]
  else if n < 0x10000 then
    [0xE0 + n / 0x1000, 0x80 + n / 0x40 % 0x40, 0x80 + n % 0x40]
  else
    [0xF0 + n / 0x40000, 0x80 + n / 0x1000 % 0x40, 0x80 + n / 0x40 % 0x40,
     0x80 + n % 0x40]

/-- Bytes of a message (`message.as_bytes()`, main.rs line 217). -/
def strBytes (s : List Char) : List Nat :=
  s.foldr (fun c acc => utf8Bytes c ++ acc) []

/-- The literal command `quit` compared against on main.rs line 215. -/
def quitCmd : List Char :=
  ['q', 'u', 'i', 't']

/-- The send loop of `handle_chat` (main.rs lines 206-241), driven by the
finite list of console lines delivered by `io::stdin().read_line`: each
line is trimmed; an empty result continues the loop; `quit` breaks out of
the loop; any other line is encrypted through the send session and its
ciphertext written to the connection. Returns the final send session and
the ordered list of ciphertext writes. -/
def sendLoop : List (List Char) → CipherSession → CipherSession × List (List Nat)
  | [], sess => (sess, [])
  | line :: more, sess =>
    let message := rustTrim line
    if message.isEmpty then sendLoop more sess
    else if message = quitCmd then (sess, [])
    else
      let r := sessionEncrypt sess (strBytes message)
      let w := sendLoop more r.1
      (w.1, r.2.1 :: w.2)

/-- Claim C7: a console input line exactly equal to `quit` terminates the
send loop; no ciphertext is encrypted or written to the connection for that
input, and the send session — its keystream position included — is left
unchanged. -/
theorem quit_ends_send_loop (more : List (List Char)) (sess : CipherSession) :
    sendLoop (quitCmd :: more) sess = (sess, []) :=
  rfl

/-- One network I/O action of the handshake, as issued on the stream. -/
inductive NetEvent where
  | writeBytes (bytes : List Nat) : NetEvent
  | readBytes (count : Nat) : NetEvent

/-- Big-endian 8-byte encoding `u64::to_be_bytes` (main.rs line 92). -/
def toBeBytes8 (x : Nat) : List Nat :=
  [x / 2 ^ 56 % 256, x / 2 ^ 48 % 256, x / 2 ^ 40 % 256, x / 2 ^ 32 % 256,
   x / 2 ^ 24 % 256, x / 2 ^ 16 % 256, x / 2 ^ 8 % 256, x % 256]

/-- Big-endian decoding `u64::from_be_bytes` (main.rs line 113). -/
def fromBeBytes8 (bytes : List Nat) : Nat :=
  bytes.foldl (fun acc b => acc * 256 + b) 0

/-- The sequence of network I/O actions `dh_key_exchange` performs
(main.rs lines 96-111): the server — the spec's Initiator role, the party
that sends the first handshake message — writes its 8-byte public value and
then reads the peer's 8 bytes; the client — the Responder — reads the
peer's 8 bytes first and then writes its own. -/
def dhExchangeEvents (is_server : Bool) (public_key : Nat) : List NetEvent :=
  if is_server then
    [NetEvent.writeBytes (toBeBytes8 public_key), NetEvent.readBytes 8]
  else
    [NetEvent.readBytes 8, NetEvent.writeBytes (toBeBytes8 public_key)]

/-- Claim C8: handshake ordering is role-dependent and complementary — the
Initiator (server) writes its 8-byte big-endian public value first and then
reads the peer's 8 bytes, while the Responder (client) reads the peer's
8 bytes first and then writes its own; the written value is a faithful
8-byte big-endian encoding of the public key. -/
theorem handshake_ordering (pk : Nat) (hpk : pk < 2 ^ 64) :
    dhExchangeEvents true pk
      = [NetEvent.writeBytes (toBeBytes8 pk), NetEvent.readBytes 8]
    ∧ dhExchangeEvents false pk
      = [NetEvent.readBytes 8, NetEvent.writeBytes (toBeBytes8 pk)]
    ∧ (toBeBytes8 pk).length = 8
    ∧ (∀ b ∈ toBeBytes8 pk, b < 256)
    ∧ fromBeBytes8 (toBeBytes8 pk) = pk := by
  refine ⟨rfl, rfl, rfl, ?_, ?_⟩
  · intro b hb
    simp only [toBeBytes8, List.mem_cons, List.not_mem_nil, or_false] at hb
    rcases hb with rfl | rfl | rfl | rfl | rfl | rfl | rfl | rfl <;>
      exact Nat.mod_lt _ (by decide)
  · simp only [toBeBytes8, fromBeBytes8, List.foldl]
    omega

/-- Witness for C8 at a concrete 64-bit public key. -/
theorem handshake_ordering_witness :
    0x0123456789ABCDEF < 2 ^ 64
    ∧ (dhExchangeEvents true 0x0123456789ABCDEF
        = [NetEvent.writeBytes (toBeBytes8 0x0123456789ABCDEF),
           NetEvent.readBytes 8]
      ∧ dhExchangeEvents false 0x0123456789ABCDEF
        = [NetEvent.readBytes 8,
           NetEvent.writeBytes (toBeBytes8 0x0123456789ABCDEF)]
      ∧ (toBeBytes8 0x0123456789ABCDEF).length = 8
      ∧ (∀ b ∈ toBeBytes8 0x0123456789ABCDEF, b < 256)
      ∧ fromBeBytes8 (toBeBytes8 0x0123456789ABCDEF) = 0x0123456789ABCDEF) :=
  ⟨by decide, handshake_ordering 0x0123456789ABCDEF (by decide)⟩
